import Mathlib

/-!
Verification of the search-and-cache engine of the opengovdatahub backend.

The definitions below are a shallow embedding of the JavaScript sources
`src/api/cacheManager.js`, `src/api/apiClient.js` and
`src/search/searchEngine.js`.  JavaScript objects used as maps are modelled
as insertion-ordered association lists (a JS object has unique keys and
enumerates entries in insertion order); `Date.now()` timestamps are passed
explicitly as `Nat` millisecond values; file persistence (`saveCache`,
`saveIndex`) has no effect on the in-memory state and is omitted.
-/

set_option maxRecDepth 4096

namespace OpenGov

/-- JSON values, as stored in the cache.  Numbers are restricted to the
integers actually occurring in the modelled payloads. -/
inductive Json where
  | null
  | bool (b : Bool)
  | num (n : Int)
  | str (s : String)
  | arr (items : List Json)
  | obj (fields : List (String × Json))

/-- JavaScript truthiness of a JSON value (`[]` and an empty object are truthy). -/
def jsTruthy : Json → Bool
  | .null => false
  | .bool b => b
  | .num n => n != 0
  | .str s => s != ""
  | .arr _ => true
  | .obj _ => true

/-- Escaping of one character inside a JSON string literal
(control characters do not occur in the modelled payloads). -/
def escChar (c : Char) : List Char :=
  if c = '"' then ['\\', '"']
  else if c = '\\' then ['\\', '\\']
  else [c]

def escStr (s : String) : List Char :=
  s.toList.flatMap escChar

mutual

/-- `JSON.stringify` (compact form, as used by `generateSnippet` /
`generateHighlights`), producing the character list of the output. -/
def stringify : Json → List Char
  | .null => "null".toList
  | .bool b => (if b then "true" else "false").toList
  | .num n => (toString n).toList
  | .str s => '"' :: escStr s ++ ['"']
  | .arr items => '[' :: stringifyItems items ++ [']']
  | .obj fields => '\x7b' :: stringifyFields fields ++ ['\x7d']

def stringifyItems : List Json → List Char
  | [] => []
  | [j] => stringify j
  | j :: rest => stringify j ++ ',' :: stringifyItems rest

def stringifyFields : List (String × Json) → List Char
  | [] => []
  | [(k, v)] => '"' :: escStr k ++ '"' :: ':' :: stringify v
  | (k, v) :: rest => ('"' :: escStr k ++ '"' :: ':' :: stringify v) ++ ',' :: stringifyFields rest

end

/-- The serialized payload, lower-cased: `JSON.stringify(data).toLowerCase()`. -/
def serializeLower (j : Json) : List Char :=
  (stringify j).map Char.toLower

/-- Regex `\w`: ASCII word character. -/
def isWordChar (c : Char) : Bool :=
  ('a' ≤ c && c ≤ 'z') || ('A' ≤ c && c ≤ 'Z') || ('0' ≤ c && c ≤ '9') || c = '_'

/-- Regex `\s` on the characters occurring here (ASCII whitespace). -/
def isSpaceChar (c : Char) : Bool :=
  c = ' ' || c = '\t' || c = '\n' || c = '\r'

/-- One step of `.replace(/[^\w\s-]/g, ' ')`. -/
def scrubChar (c : Char) : Char :=
  if isWordChar c || isSpaceChar c || c = '-' then c else ' '

/-- Split on runs of whitespace.  `String.prototype.split(/\s+/)` can also
produce a leading empty fragment; since every caller filters out words of
length ≤ 2 the composition is unchanged by dropping empties here. -/
def splitWs : List Char → List Char → List (List Char)
  | [], acc => if acc.isEmpty then [] else [acc.reverse]
  | c :: cs, acc =>
    if isSpaceChar c then
      if acc.isEmpty then splitWs cs [] else acc.reverse :: splitWs cs []
    else splitWs cs (c :: acc)

/-- The stop-word set of `SearchEngine`. -/
def stopWords : List String :=
  ["the", "a", "an", "and", "or", "but", "in", "on", "at", "to", "for", "of", "with", "by",
   "from", "up", "about", "into", "through", "during", "before", "after", "above", "below",
   "is", "are", "was", "were", "be", "been", "being", "have", "has", "had", "do", "does",
   "did", "will", "would", "should", "could", "can", "may", "might", "must", "shall"]

/-- `SearchEngine.tokenize`: lower-case, replace `[^\w\s-]` by spaces, split on
whitespace, keep words longer than 2 characters that are not stop words. -/
def tokenize (s : String) : List String :=
  let cs := (s.toList.map Char.toLower).map scrubChar
  ((splitWs cs []).map (fun w => String.mk w)).filter
    (fun w => w.length > 2 && !(stopWords.contains w))

/-- `String.prototype.includes` on character lists. -/
def listContainsSub (hay needle : List Char) : Bool :=
  if needle.isPrefixOf hay then true
  else
    match hay with
    | [] => false
    | _ :: t => listContainsSub t needle

/-- `String.prototype.indexOf` on character lists (offset accumulator). -/
def idxOfSub (hay needle : List Char) (i : Nat) : Option Nat :=
  if needle.isPrefixOf hay then some i
  else
    match hay with
    | [] => none
    | _ :: t => idxOfSub t needle (i + 1)

/-- `String.prototype.includes` on strings. -/
def strIncludes (s sub : String) : Bool :=
  listContainsSub s.toList sub.toList

/-! ## Cache Store (`src/api/cacheManager.js`) -/

/-- One entry of `this.cache`. -/
structure CacheItem where
  data : Json
  timestamp : Nat
  lastAccessed : Nat
  ttl : Nat
  source : String

/-- The in-memory cache: a JS object keyed by cache key, i.e. an
insertion-ordered association list with unique keys. -/
abbrev Cache := List (String × CacheItem)

/-- `CacheManager.isExpired`: `Date.now() - timestamp > ttl * 1000`. -/
def isExpired (now ts ttl : Nat) : Bool :=
  ttl * 1000 < now - ts

/-- `delete this.cache[key]` (keys are unique, so removing the first match
is removing the only match). -/
def eraseKey (k : String) : Cache → Cache
  | [] => []
  | e :: rest => if e.1 = k then rest else e :: eraseKey k rest

/-- `item.lastAccessed = Date.now()` on the entry at `k`. -/
def touch (k : String) (now : Nat) : Cache → Cache
  | [] => []
  | e :: rest =>
    if e.1 = k then (e.1, { e.2 with lastAccessed := now }) :: rest
    else e :: touch k now rest

/-- `CacheManager.get`: absent → null; expired → delete entry (lazy expiry)
and null; live → update `lastAccessed` and return the payload.  Returns the
result together with the updated store. -/
def cacheGetS (now : Nat) (k : String) (c : Cache) : Option Json × Cache :=
  match c.find? (fun e => e.1 = k) with
  | none => (none, c)
  | some e =>
    if isExpired now e.2.timestamp e.2.ttl then (none, eraseKey k c)
    else (some e.2.data, touch k now c)

/-- `this.cache[key] = {...}`: overwrite in place if the key exists
(keeping its position in insertion order), otherwise append. -/
def setEntry (k : String) (it : CacheItem) : Cache → Cache
  | [] => [(k, it)]
  | e :: rest => if e.1 = k then (k, it) :: rest else e :: setEntry k it rest

/-- The live (non-expired) entries, in insertion order. -/
def liveEntries (now : Nat) (c : Cache) : Cache :=
  c.filter (fun e => !(isExpired now e.2.timestamp e.2.ttl))

/-- `CacheManager.cleanup`: drop expired entries, then if more than
`maxSize` remain, stably sort a copy by `lastAccessed` ascending and delete
the oldest-accessed keys until `maxSize` remain (the surviving entries keep
their original insertion order). -/
def cleanup (now maxSize : Nat) (c : Cache) : Cache :=
  let live := liveEntries now c
  if maxSize < live.length then
    let sorted := live.insertionSort (fun a b => a.2.lastAccessed ≤ b.2.lastAccessed)
    let toRemove := (sorted.take (live.length - maxSize)).map Prod.fst
    live.filter (fun e => !(toRemove.contains e.1))
  else live

/-- `CacheManager.set`: run `cleanup`, then insert the new entry with
`timestamp = lastAccessed = now` and `source = 'api'`. -/
def cacheSetS (now : Nat) (k : String) (v : Json) (ttl maxSize : Nat) (c : Cache) : Cache :=
  setEntry k ⟨v, now, now, ttl, "api"⟩ (cleanup now maxSize c)

/-- Encoding of a cache entry as JSON, for `JSON.stringify(this.cache)`. -/
def itemToJson (it : CacheItem) : Json :=
  .obj [("data", it.data), ("timestamp", .num it.timestamp),
        ("lastAccessed", .num it.lastAccessed), ("ttl", .num it.ttl),
        ("source", .str it.source)]

def cacheToJson (c : Cache) : Json :=
  .obj (c.map (fun e => (e.1, itemToJson e.2)))

/-- `CacheManager.getStats`. -/
structure CacheStats where
  totalItems : Nat
  expiredItems : Nat
  oldestItem : Option Nat
  newestItem : Option Nat
  cacheSize : Nat
  maxSize : Nat
  defaultTTL : Nat

def getStats (now maxSize defaultTTL : Nat) (c : Cache) : CacheStats :=
  { totalItems := c.length
    expiredItems := (c.filter (fun e => isExpired now e.2.timestamp e.2.ttl)).length
    oldestItem := (c.map (fun e => e.2.timestamp)).min?
    newestItem := (c.map (fun e => e.2.timestamp)).max?
    cacheSize := (stringify (cacheToJson c)).length
    maxSize := maxSize
    defaultTTL := defaultTTL }

/-- The view of one live entry handed to the search engine by
`CacheManager.getAllData`. -/
structure CacheView where
  cacheKey : String
  data : Json
  timestamp : Nat
  source : String

/-- `CacheManager.getAllData`: the live entries, projected; a pure read. -/
def getAllData (now : Nat) (c : Cache) : List CacheView :=
  (liveEntries now c).map (fun e => ⟨e.1, e.2.data, e.2.timestamp, e.2.source⟩)

/-! ## Indexer and Query Engine (`src/search/searchEngine.js`) -/

/-- `String.prototype.trim` (ASCII whitespace, which is all the modelled
data contains). -/
def trimWs (s : String) : String :=
  String.mk (((s.toList.dropWhile isSpaceChar).reverse.dropWhile isSpaceChar).reverse)

/-- `String.prototype.startsWith`. -/
def strStartsWith (s p : String) : Bool :=
  p.toList.isPrefixOf s.toList

/-- Property access `j.name` on an object; yields `null` (≈ `undefined`,
both falsy) when absent or when `j` is not an object, matching the
optional-chaining uses; plain access on a non-object would throw in JS,
which no modelled payload triggers. -/
def getField (j : Json) (name : String) : Json :=
  match j with
  | .obj fs =>
    match fs.find? (fun p => p.1 = name) with
    | some p => p.2
    | none => .null
  | _ => .null

/-- `expr || ''` for a field subsequently used as a string: the string
itself when the field holds one, `''` when it is absent or falsy (a truthy
non-string field would make the JS `.trim()` filter throw; no modelled
payload contains one). -/
def orEmptyStr (j : Json) : String :=
  match j with
  | .str s => s
  | _ => ""

/-- The four texts pushed per element in the `'crime'` branch of
`extractSearchableText`. -/
def crimeTexts (c : Json) : List String :=
  [orEmptyStr (getField c "category"),
   orEmptyStr (getField (getField (getField c "location") "street") "name"),
   orEmptyStr (getField c "location_type"),
   orEmptyStr (getField c "context")]

/-- The `'planning'` branch texts per element. -/
def planningTexts (p : Json) : List String :=
  [orEmptyStr (getField p "name"),
   orEmptyStr (getField p "description"),
   orEmptyStr (getField p "development_type"),
   orEmptyStr (getField p "status")]

/-- The `'spending'` branch texts per record (`record.fields || {}`). -/
def spendingTexts (r : Json) : List String :=
  let fields := getField r "fields"
  [orEmptyStr (getField fields "supplier_name"),
   orEmptyStr (getField fields "description"),
   orEmptyStr (getField fields "service_area"),
   orEmptyStr (getField fields "expense_type")]

mutual

/-- `extractTextFromObject`: push every string in the payload tree, in
traversal order (`Object.values` enumerates in insertion order). -/
def extractTextFromObject : Json → List String
  | .str s => [s]
  | .arr items => extractTextArr items
  | .obj fields => extractTextObj fields
  | _ => []

def extractTextArr : List Json → List String
  | [] => []
  | j :: rest => extractTextFromObject j ++ extractTextArr rest

def extractTextObj : List (String × Json) → List String
  | [] => []
  | (_, v) :: rest => extractTextFromObject v ++ extractTextObj rest

end

/-- `SearchEngine.extractSearchableText`: non-objects yield no texts; the
category branches collect their fixed fields; the result is filtered to
non-blank strings. -/
def extractSearchableText (data : Json) (ty : String) : List String :=
  match data with
  | .arr items =>
    let texts :=
      if ty = "crime" then items.flatMap crimeTexts
      else if ty = "planning" then items.flatMap planningTexts
      else if ty = "spending" then
        -- an array has no `records` property, so this branch collects nothing
        []
      else extractTextFromObject (.arr items)
    texts.filter (fun t => (trimWs t).length > 0)
  | .obj fields =>
    let texts :=
      if ty = "crime" then []
      else if ty = "planning" then []
      else if ty = "spending" then
        match getField (.obj fields) "records" with
        | .arr records => records.flatMap spendingTexts
        | _ => []
      else extractTextFromObject (.obj fields)
    texts.filter (fun t => (trimWs t).length > 0)
  | _ => []

/-- Category derivation shared by `buildIndex` and `getDocumentType`: first
substring match among `crime`, `planning`, `spending`, else `generic`. -/
def dataTypeOf (key : String) : String :=
  if strIncludes key "crime" then "crime"
  else if strIncludes key "planning" then "planning"
  else if strIncludes key "spending" then "spending"
  else "generic"

/-- One posting of the inverted index (`getFieldsContainingTerm` is a stub
returning `[]` in the source, so `fields` is always empty at build time). -/
structure Posting where
  docId : String
  count : Nat
  type : String
  fields : List String

/-- The inverted index `this.index`: a JS object mapping term → postings. -/
abbrev Index := List (String × List Posting)

/-- The inner upsert of `buildIndex`: find the posting for `doc` and
increment its count, else push a fresh posting with count 1. -/
def bumpPosting (doc ty : String) : List Posting → List Posting
  | [] => [⟨doc, 1, ty, []⟩]
  | p :: ps =>
    if p.docId = doc then { p with count := p.count + 1 } :: ps
    else p :: bumpPosting doc ty ps

/-- Upsert one token occurrence of document `doc` into the index
(`if (!newIndex[token]) newIndex[token] = []` then find/increment/push). -/
def addTok (doc ty tok : String) : Index → Index
  | [] => [(tok, [⟨doc, 1, ty, []⟩])]
  | (t, ps) :: rest =>
    if t = tok then (t, bumpPosting doc ty ps) :: rest
    else (t, ps) :: addTok doc ty tok rest

/-- The token list of one cached document: extract, join with spaces,
tokenize. -/
def docTokens (v : CacheView) : List String :=
  tokenize (String.intercalate " " (extractSearchableText v.data (dataTypeOf v.cacheKey)))

/-- Index all tokens of one document. -/
def indexDoc (idx : Index) (doc ty : String) (toks : List String) : Index :=
  toks.foldl (fun i t => addTok doc ty t i) idx

/-- `SearchEngine.buildIndex`: fold the live cache entries into a fresh
index. -/
def buildIndex (now : Nat) (c : Cache) : Index :=
  (getAllData now c).foldl
    (fun idx v => indexDoc idx v.cacheKey (dataTypeOf v.cacheKey) (docTokens v)) []

/-- `this.index[token] || []` (first matching key of the object). -/
def lookupIdx (idx : Index) (t : String) : List Posting :=
  match idx with
  | [] => []
  | (t', ps) :: rest => if t' = t then ps else lookupIdx rest t

/-- `SearchEngine.calculateTokenScore`: the term count, tripled for a
title field and doubled for a name field (never taken: `fields` is empty). -/
def calculateTokenScore (p : Posting) : Nat :=
  if p.fields.contains "title" then p.count * 3
  else if p.fields.contains "name" then p.count * 2
  else p.count

/-- `Map.prototype.set`: update in place, else append (JS `Map` keeps
first-insertion order). -/
def scoresSet (k : String) (v : Nat) : List (String × Nat) → List (String × Nat)
  | [] => [(k, v)]
  | (k', v') :: rest =>
    if k' = k then (k, v) :: rest else (k', v') :: scoresSet k v rest

/-- `docScores.get(docId) || 0`. -/
def scoresGet (m : List (String × Nat)) (k : String) : Nat :=
  match m.find? (fun e => e.1 = k) with
  | some e => e.2
  | none => 0

/-- The score-accumulation loop of `search`. -/
def accumulateScores (idx : Index) (typeFilter : Option String)
    (tokens : List String) : List (String × Nat) :=
  tokens.foldl
    (fun m tok =>
      (lookupIdx idx tok).foldl
        (fun m p =>
          match typeFilter with
          | some ty => if p.type = ty then scoresSet p.docId (scoresGet m p.docId + calculateTokenScore p) m else m
          | none => scoresSet p.docId (scoresGet m p.docId + calculateTokenScore p) m)
        m)
    []

/-- `Array.prototype.sort((a, b) => b[1] - a[1])`: stable sort by
descending score. -/
def sortScoresDesc (l : List (String × Nat)) : List (String × Nat) :=
  l.insertionSort (fun a b => b.2 ≤ a.2)

/-- `SearchEngine.getDocumentType` (same substring logic as `buildIndex`). -/
def getDocumentType (docId : String) : String := dataTypeOf docId

/-- `SearchEngine.generateSnippet`: serialize the payload, find the first
token occurring in it, and return `text.substring(max(0, i-50), min(len,
i+maxLength))`, with an ellipsis when cut off on the right. -/
def generateSnippet (d : Option Json) (tokens : List String) (maxLength : Nat) : Option String :=
  match d with
  | none => none
  | some j =>
    if jsTruthy j then
      let text := serializeLower j
      match tokens.find? (fun t => listContainsSub text t.toList) with
      | none => none
      | some tok =>
        match idxOfSub text tok.toList 0 with
        | none => none
        | some i =>
          let start := i - 50
          let stop := min text.length (i + maxLength)
          some (String.mk ((text.drop start).take (stop - start)) ++
                (if stop < text.length then "..." else ""))
    else none

/-- Regex `\b` between an optional previous and next character. -/
def wordBoundary (prev next : Option Char) : Bool :=
  (prev.elim false isWordChar) != (next.elim false isWordChar)

/-- Count of non-overlapping whole-word matches of `needle` scanning left
to right (regex `\bneedle\b` with the `g` flag); `prev` is the character
before the current position.  Fuel-driven recursion; fuel is the text
length plus one, enough to scan to the end. -/
def countWWAux (needle : List Char) : Nat → Option Char → List Char → Nat
  | 0, _, _ => 0
  | fuel + 1, prev, hay =>
    if !needle.isEmpty && needle.isPrefixOf hay
        && wordBoundary prev needle.head?
        && wordBoundary needle.getLast? (hay.drop needle.length).head? then
      1 + countWWAux needle fuel needle.getLast? (hay.drop needle.length)
    else
      match hay with
      | [] => 0
      | c :: t => countWWAux needle fuel (some c) t

def countWholeWord (text needle : List Char) : Nat :=
  countWWAux needle (text.length + 1) none text

/-- `SearchEngine.generateHighlights`: per token, the whole-word occurrence
count in the serialized payload; zero-count tokens are omitted. -/
def generateHighlights (d : Option Json) (tokens : List String) : List (String × Nat) :=
  match d with
  | none => []
  | some j =>
    if jsTruthy j then
      let text := serializeLower j
      tokens.foldl
        (fun acc tok =>
          match countWholeWord text tok.toList with
          | 0 => acc
          | n => acc ++ [(tok, n)])
        []
    else []

/-- One element of `search(...).results`. -/
structure ResultItem where
  id : String
  score : Nat
  data : Option Json
  type : String
  snippet : Option String
  highlights : List (String × Nat)

/-- The value returned by `search` (`took` is wall-clock time and is not
modelled; `tokensRet` is `none` on the two early returns, which carry no
`tokens` field). -/
structure SearchResult where
  results : List ResultItem
  total : Nat
  query : String
  tokensRet : Option (List String)

/-- Result assembly of `search` after tokenization succeeded. -/
def searchMain (idx : Index) (cachedData : List CacheView) (q : String)
    (tokens : List String) (limit offset : Nat) (typeFilter : Option String)
    (includeSnippets : Bool) : SearchResult :=
  let docScores := accumulateScores idx typeFilter tokens
  let sliced := ((sortScoresDesc docScores).drop offset).take limit
  let results := sliced.map (fun e =>
    let item := (cachedData.find? (fun v => v.cacheKey = e.1))
    { id := e.1
      score := e.2
      data := item.map (fun v => v.data)
      type := getDocumentType e.1
      snippet := if includeSnippets then generateSnippet (item.map (fun v => v.data)) tokens 200 else none
      highlights := generateHighlights (item.map (fun v => v.data)) tokens
      : ResultItem })
  ⟨results, docScores.length, q, some tokens⟩

/-- The process-wide engine state: the cache store and the search index. -/
structure EngineState where
  cache : Cache
  index : Index

/-- `cacheManager.getAllData()` as called from `search`: a read that leaves
the store as it is. -/
def getAllDataS (now : Nat) (c : Cache) : List CacheView × Cache :=
  (getAllData now c, c)

/-- `SearchEngine.search` with the defaults `limit=20, offset=0, type=null,
includeSnippets=true` passed explicitly: empty/stop-word-only queries yield
an empty result; otherwise score, rank, paginate and assemble. -/
def searchS (now : Nat) (q : String) (limit offset : Nat)
    (typeFilter : Option String) (includeSnippets : Bool)
    (st : EngineState) : SearchResult × EngineState :=
  if q = "" then (⟨[], 0, q, none⟩, st)
  else
    let tokens := tokenize q
    if tokens.isEmpty then (⟨[], 0, q, none⟩, st)
    else
      let r := getAllDataS now st.cache
      (searchMain st.index r.1 q tokens limit offset typeFilter includeSnippets,
       ⟨r.2, st.index⟩)

/-- `SearchEngine.getSuggestions`: prefix lookup of the last query token
over the index terms (`{term, count: this.index[term].length}`). -/
def getSuggestions (idx : Index) (q : String) (limit : Nat) : List (String × Nat) :=
  if q = "" || q.length < 2 then []
  else
    let tokens := tokenize q
    let lastToken :=
      match tokens.getLast? with
      | some t => t
      | none => q.toLower
    (((idx.map Prod.fst).filter (fun t => strStartsWith t lastToken)).take limit).map
      (fun t => (t, (lookupIdx idx t).length))

/-- `getSuggestions` as a state operation: it reads only `this.index`. -/
def suggestS (q : String) (limit : Nat) (st : EngineState) :
    List (String × Nat) × EngineState :=
  (getSuggestions st.index q limit, st)

/-- `SearchEngine.rebuildIndex`: clear the index, then rebuild it from the
live cache entries (the cleared index is immediately replaced). -/
def rebuildIndexS (now : Nat) (st : EngineState) : EngineState :=
  { st with index := buildIndex now st.cache }

/-! ## Fetch Gateway (`src/api/apiClient.js`) -/

/-- The sliding-window counters of `ApiClient`. -/
structure RateState where
  requestCount : Nat
  windowStart : Nat

/-- `ApiClient.enforceRateLimit`: reset the window when it has elapsed;
then either reject with the remaining wait in whole seconds
(`Math.ceil(waitTime / 1000)`), or count the request.  The state after a
reset is kept even when the call is rejected, as the JS mutation is. -/
def enforceRateLimit (now limit windowSize : Nat) (rl : RateState) :
    RateState × Option Nat :=
  let rl := if windowSize < now - rl.windowStart then ⟨0, now⟩ else rl
  if limit ≤ rl.requestCount then
    (rl, some ((windowSize - (now - rl.windowStart) + 999) / 1000))
  else
    ({ rl with requestCount := rl.requestCount + 1 }, none)

/-- Failures surfaced by `fetchWithCache`: the rate-limit rejection thrown
by the request interceptor (carrying the wait in seconds) and an upstream
transport failure. -/
inductive FetchError where
  | rateLimited (waitSeconds : Nat)
  | upstreamFailed

/-- The per-process client state: rate window plus the shared cache store. -/
structure ClientState where
  rate : RateState
  cache : Cache

/-- `ApiClient.fetchWithCache` for a fixed cache key.  `upstream` is the
outcome the external call would return, consulted only when a request is
actually issued; `none` models a transport failure.  The rate-limit
rejection is thrown inside `this.client.get`, so it lands in the same
`catch` as an upstream failure and is subject to the same stale fallback.
`cachedData && ...` tests JS truthiness of the payload. -/
def fetchWithCache (now limit windowSize maxSize : Nat) (key : String)
    (forceRefresh allowStale : Bool) (cacheTTL : Nat) (upstream : Option Json)
    (st : ClientState) : Except FetchError Json × ClientState :=
  let g := cacheGetS now key st.cache
  let cachedData := g.1
  let cache1 := g.2
  let hit := (cachedData.elim false jsTruthy) && !forceRefresh
  if hit then
    (.ok (cachedData.getD .null), ⟨st.rate, cache1⟩)
  else
    let r := enforceRateLimit now limit windowSize st.rate
    match r.2 with
    | some w =>
      if (cachedData.elim false jsTruthy) && allowStale then
        (.ok (cachedData.getD .null), ⟨r.1, cache1⟩)
      else
        (.error (.rateLimited w), ⟨r.1, cache1⟩)
    | none =>
      match upstream with
      | some payload =>
        (.ok payload, ⟨r.1, cacheSetS now key payload cacheTTL maxSize cache1⟩)
      | none =>
        if (cachedData.elim false jsTruthy) && allowStale then
          (.ok (cachedData.getD .null), ⟨r.1, cache1⟩)
        else
          (.error .upstreamFailed, ⟨r.1, cache1⟩)

/-- A sequence of `fetchWithCache` calls at one instant; each call carries
its key and the upstream outcome it would see. -/
def runFetches (now limit windowSize maxSize ttl : Nat) :
    List (String × Option Json) → ClientState →
    List (Except FetchError Json) × ClientState
  | [], st => ([], st)
  | (k, up) :: rest, st =>
    let r := fetchWithCache now limit windowSize maxSize k false false ttl up st
    let rec' := runFetches now limit windowSize maxSize ttl rest r.2
    (r.1 :: rec'.1, rec'.2)

/-! ## Theorems -/

/-- Looking up the key just written by `setEntry` finds the new item. -/
theorem find?_setEntry (k : String) (it : CacheItem) (c : Cache) :
    (setEntry k it c).find? (fun e => e.1 = k) = some (k, it) := by
  induction c with
  | nil => simp [setEntry]
  | cons e rest ih =>
    by_cases h : e.1 = k
    · simp [setEntry, h]
    · simp [setEntry, h, ih]

/-- C2.  Cache round-trip: a `get(k)` performed within `ttl` seconds of a
`set(k, v, ttl)`, with no intervening operation on the store, returns `v`
unchanged. -/
theorem cache_roundTrip (c : Cache) (k : String) (v : Json)
    (ttl t0 t1 maxSize : Nat) (h : t1 - t0 ≤ ttl * 1000) :
    (cacheGetS t1 k (cacheSetS t0 k v ttl maxSize c)).1 = some v := by
  unfold cacheSetS cacheGetS
  rw [find?_setEntry]
  simp only [isExpired]
  have : ¬ (ttl * 1000 < t1 - t0) := by omega
  simp [this]

/-- Witness for C2 at a concrete store, key, payload and times. -/
theorem cache_roundTrip_witness :
    (1500 : Nat) - 1000 ≤ 3600 * 1000 ∧
    (cacheGetS 1500 "k" (cacheSetS 1000 "k" (.str "v") 3600 1000 [])).1 = some (.str "v") :=
  ⟨by omega, cache_roundTrip [] "k" (.str "v") 3600 1000 1500 1000 (by omega)⟩

/-- Removing a present key shortens the store by exactly one entry. -/
theorem length_eraseKey (k : String) (c : Cache) (e : String × CacheItem)
    (h : c.find? (fun x => x.1 = k) = some e) :
    (eraseKey k c).length + 1 = c.length := by
  induction c with
  | nil => simp at h
  | cons x rest ih =>
    by_cases hx : x.1 = k
    · simp [eraseKey, hx]
    · rw [List.find?_cons_of_neg] at h
      · simp [eraseKey, hx, ih h]
      · simp [hx]

/-- C6.  Lazy expiry: once the wall clock has moved past
`createdAt + ttl` seconds, `get(k)` reports the entry absent and deletes
it, so the entry no longer counts in a subsequent `getStats().totalItems`. -/
theorem lazy_expiry (now maxSize dTTL : Nat) (k : String) (c : Cache)
    (e : String × CacheItem)
    (hfind : c.find? (fun x => x.1 = k) = some e)
    (hexp : e.2.timestamp + e.2.ttl * 1000 < now) :
    (cacheGetS now k c).1 = none ∧
    (getStats now maxSize dTTL (cacheGetS now k c).2).totalItems + 1 =
      (getStats now maxSize dTTL c).totalItems := by
  unfold cacheGetS
  rw [hfind]
  have hx : isExpired now e.2.timestamp e.2.ttl = true := by
    simp only [isExpired, decide_eq_true_eq]
    omega
  refine ⟨by simp [hx], ?_⟩
  simp only [hx, if_true, getStats]
  exact length_eraseKey k c e hfind

/-- Witness for C6: an entry created at time 0 with a 1-second TTL is gone
at time 5000 ms. -/
theorem lazy_expiry_witness :
    ([("k", (⟨.str "old", 0, 0, 1, "api"⟩ : CacheItem))] : Cache).find?
        (fun x => x.1 = "k") = some ("k", ⟨.str "old", 0, 0, 1, "api"⟩) ∧
    (0 : Nat) + 1 * 1000 < 5000 ∧
    ((cacheGetS 5000 "k" [("k", ⟨.str "old", 0, 0, 1, "api"⟩)]).1 = none ∧
     (getStats 5000 1000 3600 (cacheGetS 5000 "k" [("k", ⟨.str "old", 0, 0, 1, "api"⟩)]).2).totalItems + 1 =
       (getStats 5000 1000 3600 [("k", ⟨.str "old", 0, 0, 1, "api"⟩)]).totalItems) :=
  ⟨rfl, by omega,
   lazy_expiry 5000 1000 3600 "k" [("k", ⟨.str "old", 0, 0, 1, "api"⟩)]
     ("k", ⟨.str "old", 0, 0, 1, "api"⟩) rfl (by decide)⟩

/-- C8.  A query that tokenizes to no tokens (empty, punctuation-only, or
only stop-words / words of length ≤ 2) yields `results = []`, `total = 0`,
with no error. -/
theorem empty_query (now limit offset : Nat) (tf : Option String) (inc : Bool)
    (st : EngineState) (q : String) (h : tokenize q = []) :
    (searchS now q limit offset tf inc st).1.results = [] ∧
    (searchS now q limit offset tf inc st).1.total = 0 := by
  unfold searchS
  split
  · exact ⟨rfl, rfl⟩
  · simp [h]

/-- Witness for C8 on a stop-word / short-token / punctuation query. -/
theorem empty_query_witness :
    tokenize "a!! the of" = [] ∧
    ((searchS 0 "a!! the of" 20 0 none true ⟨[], []⟩).1.results = [] ∧
     (searchS 0 "a!! the of" 20 0 none true ⟨[], []⟩).1.total = 0) :=
  ⟨by decide, empty_query 0 20 0 none true ⟨[], []⟩ "a!! the of" (by decide)⟩

/-- C10.  `search` and `getSuggestions` are read-only: the cache store and
the index are exactly as before (in particular no `lastAccessed` update
happens for returned documents, since `search` reads through the
`getAllData` snapshot and never through `get`), so a later `cleanup` evicts
exactly what it would have evicted without the search. -/
theorem search_read_only (now limit offset slimit : Nat) (q qs : String)
    (tf : Option String) (inc : Bool) (st : EngineState) :
    (searchS now q limit offset tf inc st).2 = st ∧
    (suggestS qs slimit st).2 = st ∧
    (∀ k, ((searchS now q limit offset tf inc st).2.cache.find? (fun e => e.1 = k)) =
      st.cache.find? (fun e => e.1 = k)) ∧
    (∀ ms, cleanup now ms (searchS now q limit offset tf inc st).2.cache =
      cleanup now ms st.cache) := by
  have h1 : (searchS now q limit offset tf inc st).2 = st := by
    unfold searchS getAllDataS
    split
    · rfl
    · dsimp only
      split
      · rfl
      · rfl
  exact ⟨h1, rfl, fun k => by rw [h1], fun ms => by rw [h1]⟩

/-- The concrete C1 payload:
`[{category:"burglary", location:{street:{name:"High St"}}}]`. -/
def c1Payload : Json :=
  .arr [.obj [("category", .str "burglary"),
              ("location", .obj [("street", .obj [("name", .str "High St")])])]]

/-- State after `set("crimes?lat=51.5", c1Payload, 3600)` on an empty
cache (default `maxSize` 1000, at time 1000 ms). -/
def c1State1 : EngineState :=
  ⟨cacheSetS 1000 "crimes?lat=51.5" c1Payload 3600 1000 [], []⟩

/-- State after `rebuildIndex()`. -/
def c1State2 : EngineState := rebuildIndexS 1000 c1State1

/-- The value of `search("burglary")` with the default options. -/
def c1Res : SearchResult := (searchS 1000 "burglary" 20 0 none true c1State2).1

/-- C1.  End-to-end pipeline: after the `set` and `rebuildIndex()` above,
`search("burglary")` returns exactly one result, whose `id` is
`"crimes?lat=51.5"` and whose score is strictly positive. -/
theorem end_to_end_pipeline :
    c1Res.total = 1 ∧
    c1Res.results.map (fun r => r.id) = ["crimes?lat=51.5"] ∧
    c1Res.results.all (fun r => 0 < r.score) = true := by
  decide

/-- Cache holding one entry at `"k"` created at time 0 with a 1-second TTL;
at time 5000 ms it is expired. -/
def c3Cache : Cache := [("k", ⟨.str "old", 0, 0, 1, "api"⟩)]

/-- C3 counterexample.  Key `"k"` holds a previously cached (expired)
value, `allowStale` is set, and the upstream fetch fails — yet
`fetchWithCache` propagates the failure instead of returning the value:
`get` has already deleted the expired entry, so the stale fallback sees
nothing to fall back to. -/
theorem stale_fallback_counterexample :
    (fetchWithCache 5000 100 60000 1000 "k" false true 3600 none
      ⟨⟨0, 5000⟩, c3Cache⟩).1 = .error .upstreamFailed := by
  rfl

/-- C3 (amended).  The stale fallback only ever serves a value that is
still live: if `get(k)` still returns a (truthy) payload `v` and
`allowStale` is set, then a failing upstream fetch — whether attempted
because of `forceRefresh` or skipped on the cache hit — yields `v` rather
than an error; for an entry that is already expired, `get` deletes it and
the failure propagates (see the counterexample). -/
theorem stale_fallback_amended (now limit windowSize maxSize ttl : Nat)
    (key : String) (forceRefresh : Bool) (st : ClientState) (v : Json)
    (hv : (cacheGetS now key st.cache).1 = some v) (ht : jsTruthy v = true) :
    (fetchWithCache now limit windowSize maxSize key forceRefresh true ttl none
      st).1 = .ok v := by
  have helim : (cacheGetS now key st.cache).1.elim false jsTruthy = true := by
    rw [hv]; exact ht
  have hgd : (cacheGetS now key st.cache).1.getD .null = v := by rw [hv]; rfl
  unfold fetchWithCache
  cases forceRefresh with
  | false => simp [helim, hgd]
  | true =>
    simp only [helim, Bool.not_true, Bool.and_false, Bool.true_and, if_false]
    rcases hr : enforceRateLimit now limit windowSize st.rate with ⟨rl, o⟩
    cases o <;> simp [hr, helim, hgd]

/-- Cache holding a still-live entry at `"k"` for the C3 witness. -/
def c3LiveCache : Cache := [("k", ⟨.str "old", 0, 0, 3600, "api"⟩)]

/-- Witness for the amended C3 with a live entry and a forced, failing
refresh. -/
theorem stale_fallback_amended_witness :
    (cacheGetS 1000 "k" c3LiveCache).1 = some (.str "old") ∧
    jsTruthy (.str "old") = true ∧
    (fetchWithCache 1000 100 60000 1000 "k" true true 3600 none
      ⟨⟨0, 1000⟩, c3LiveCache⟩).1 = .ok (.str "old") :=
  ⟨rfl, rfl,
   stale_fallback_amended 1000 100 60000 1000 3600 "k" true ⟨⟨0, 1000⟩, c3LiveCache⟩
     (.str "old") rfl rfl⟩

/-- A payload whose serialization is 315 characters long, with the token
`zzz` at index 61: the snippet window then spans indices 11 … 260. -/
def c9Data : Json :=
  .str (String.mk (List.replicate 60 'a' ++ ['z', 'z', 'z'] ++ List.replicate 250 'b'))

/-- C9 counterexample.  The snippet for `c9Data` and token list `["zzz"]`
is 253 characters long (a 250-character window plus the ellipsis), which
contradicts the claimed bound of 200 characters (203 with the ellipsis):
the code takes `substring(i - 50, i + 200)`, a window of up to 250
characters. -/
theorem snippet_window_counterexample :
    (generateSnippet (some c9Data) ["zzz"] 200).map String.length = some 253 ∧
    ¬ (253 ≤ 200 + 3) := by
  exact ⟨by decide, by omega⟩

/-- A string contained in `hay` has an index in `hay`. -/
theorem idxOfSub_of_contains : ∀ (hay needle : List Char),
    listContainsSub hay needle = true → ∀ n, ∃ m, idxOfSub hay needle n = some m := by
  intro hay
  induction hay with
  | nil =>
    intro needle h n
    rw [listContainsSub] at h
    by_cases hp : needle.isPrefixOf ([] : List Char) = true
    · exact ⟨n, by rw [idxOfSub]; simp [hp]⟩
    · simp [hp] at h
  | cons c t ih =>
    intro needle h n
    rw [listContainsSub] at h
    rw [idxOfSub]
    by_cases hp : needle.isPrefixOf (c :: t) = true
    · exact ⟨n, by simp [hp]⟩
    · simp only [hp, if_false] at h ⊢
      exact ih needle h (n + 1)

/-- C9 (amended).  When some token occurs in the serialized payload, the
snippet is the window of the serialized text from `max(0, i - 50)` to
`min(length, i + 200)` — up to 250 characters, not 200 — where `i` is the
index of the first occurrence of the first matching token, suffixed with an
ellipsis exactly when the window is cut short of the end of the text. -/
theorem snippet_window (j : Json) (tokens : List String) (tok : String) (i : Nat)
    (hj : jsTruthy j = true)
    (hfind : tokens.find? (fun t => listContainsSub (serializeLower j) t.toList) = some tok)
    (hidx : idxOfSub (serializeLower j) tok.toList 0 = some i) :
    ∃ w : List Char,
      generateSnippet (some j) tokens 200 =
        some (String.mk w ++ (if i + 200 < (serializeLower j).length then "..." else "")) ∧
      w = ((serializeLower j).drop (i - 50)).take
            (min (serializeLower j).length (i + 200) - (i - 50)) ∧
      w.length ≤ 250 := by
  refine ⟨((serializeLower j).drop (i - 50)).take
            (min (serializeLower j).length (i + 200) - (i - 50)), ?_, rfl, ?_⟩
  · simp only [generateSnippet, hj, if_true]
    rw [hfind]
    dsimp only
    rw [hidx]
    dsimp only
    have hcond : (if min (serializeLower j).length (i + 200) < (serializeLower j).length
          then ("..." : String) else "")
        = (if i + 200 < (serializeLower j).length then "..." else "") := by
      by_cases hc : i + 200 < (serializeLower j).length
      · rw [if_pos hc, if_pos (by omega)]
      · rw [if_neg hc, if_neg (by omega)]
    rw [hcond]
  · have h1 : (((serializeLower j).drop (i - 50)).take
        (min (serializeLower j).length (i + 200) - (i - 50))).length
        = min (min (serializeLower j).length (i + 200) - (i - 50))
            ((serializeLower j).length - (i - 50)) := by
      simp [List.length_take, List.length_drop]
    rw [h1]
    omega

/-- Witness for the amended C9: a token matching inside a short payload. -/
theorem snippet_window_witness :
    jsTruthy (.str "abc") = true ∧
    (["abc"].find? (fun t => listContainsSub (serializeLower (.str "abc")) t.toList)
      = some "abc") ∧
    idxOfSub (serializeLower (.str "abc")) "abc".toList 0 = some 1 ∧
    (∃ w : List Char,
      generateSnippet (some (.str "abc")) ["abc"] 200 =
        some (String.mk w ++
          (if 1 + 200 < (serializeLower (.str "abc")).length then "..." else "")) ∧
      w = ((serializeLower (.str "abc")).drop (1 - 50)).take
            (min (serializeLower (.str "abc")).length (1 + 200) - (1 - 50)) ∧
      w.length ≤ 250) :=
  ⟨rfl, by decide, by decide,
   snippet_window (.str "abc") ["abc"] "abc" 1 rfl (by decide) (by decide)⟩

/-- Inserting an entry accessed later than everything in the list lands at
the very end. -/
theorem orderedInsert_of_gt_all (m : String × CacheItem)
    (l : List (String × CacheItem))
    (h : ∀ y ∈ l, y.2.lastAccessed < m.2.lastAccessed) :
    l.orderedInsert (fun a b => a.2.lastAccessed ≤ b.2.lastAccessed) m = l ++ [m] := by
  induction l with
  | nil => rfl
  | cons b bs ih =>
    have hb := h b (List.mem_cons_self _ _)
    rw [List.orderedInsert, if_neg (by omega)]
    rw [ih (fun y hy => h y (List.mem_cons_of_mem _ hy))]
    rfl

/-- Inserting an entry accessed earlier than the trailing maximum keeps the
maximum at the end. -/
theorem orderedInsert_append_max (x m : String × CacheItem)
    (l : List (String × CacheItem)) (hx : x.2.lastAccessed < m.2.lastAccessed) :
    (l ++ [m]).orderedInsert (fun a b => a.2.lastAccessed ≤ b.2.lastAccessed) x =
      l.orderedInsert (fun a b => a.2.lastAccessed ≤ b.2.lastAccessed) x ++ [m] := by
  induction l with
  | nil =>
    simp only [List.nil_append, List.orderedInsert]
    rw [if_pos (Nat.le_of_lt hx)]
    rfl
  | cons b bs ih =>
    simp only [List.cons_append, List.orderedInsert, List.append_eq]
    by_cases hxb : x.2.lastAccessed ≤ b.2.lastAccessed
    · rw [if_pos hxb, if_pos hxb]; rfl
    · rw [if_neg hxb, if_neg hxb, ih]; rfl

/-- Sorting by ascending `lastAccessed` puts the entry strictly most
recently accessed at the very end. -/
theorem insertionSort_max_last (l : List (String × CacheItem))
    (m : String × CacheItem) (hnd : l.Nodup) (hm : m ∈ l)
    (hmax : ∀ y ∈ l, y ≠ m → y.2.lastAccessed < m.2.lastAccessed) :
    ∃ rest,
      l.insertionSort (fun a b => a.2.lastAccessed ≤ b.2.lastAccessed) = rest ++ [m] ∧
      m ∉ rest := by
  induction l with
  | nil => cases hm
  | cons x xs ih =>
    rw [List.insertionSort]
    by_cases hxm : x = m
    · subst hxm
      have hnx : x ∉ xs := (List.nodup_cons.mp hnd).1
      refine ⟨xs.insertionSort (fun a b => a.2.lastAccessed ≤ b.2.lastAccessed),
        orderedInsert_of_gt_all x _ ?_, ?_⟩
      · intro y hy
        have hyx : y ∈ xs := (List.perm_insertionSort _ xs).mem_iff.mp hy
        exact hmax y (List.mem_cons_of_mem _ hyx) (fun he => hnx (he ▸ hyx))
      · intro hmem
        exact hnx ((List.perm_insertionSort _ xs).mem_iff.mp hmem)
    · have hmxs : m ∈ xs := (List.mem_cons.mp hm).resolve_left (fun he => hxm he.symm)
      obtain ⟨rest, hsort, hnr⟩ := ih (List.nodup_cons.mp hnd).2 hmxs
        (fun y hy hne => hmax y (List.mem_cons_of_mem _ hy) hne)
      rw [hsort, orderedInsert_append_max x m rest
        (hmax x (List.mem_cons_self _ _) hxm)]
      refine ⟨List.orderedInsert _ x rest, rfl, ?_⟩
      intro hmem
      rcases (List.mem_orderedInsert _).mp hmem with he | he
      · exact hxm he.symm
      · exact hnr he

/-- `cleanup` evicts exactly enough entries to bring the live count down to
`maxSize` (and touches nothing when the live count is already within the
limit). -/
theorem cleanup_length (now maxSize : Nat) (c : Cache)
    (hnd : (c.map Prod.fst).Nodup) :
    (cleanup now maxSize c).length = min (liveEntries now c).length maxSize := by
  unfold cleanup
  by_cases h : maxSize < (liveEntries now c).length
  · rw [if_pos h]
    set live := liveEntries now c with hlive
    set sorted := live.insertionSort (fun a b => a.2.lastAccessed ≤ b.2.lastAccessed)
      with hsorted
    set toRemove := (sorted.take (live.length - maxSize)).map Prod.fst with htr
    have hperm : List.Perm sorted live := List.perm_insertionSort _ live
    have hndlive : (live.map Prod.fst).Nodup :=
      hnd.sublist ((List.filter_sublist c).map Prod.fst)
    have hndsorted : (sorted.map Prod.fst).Nodup :=
      ((hperm.map Prod.fst).nodup_iff).mpr hndlive
    have hfperm : List.Perm (live.filter (fun e => !(toRemove.contains e.1)))
        (sorted.filter (fun e => !(toRemove.contains e.1))) :=
      (hperm.filter _).symm
    have hsplit : sorted = sorted.take (live.length - maxSize) ++
        sorted.drop (live.length - maxSize) :=
      (List.take_append_drop _ sorted).symm
    have htake : (sorted.take (live.length - maxSize)).filter
        (fun e => !(toRemove.contains e.1)) = [] := by
      apply List.filter_eq_nil_iff.mpr
      intro a ha
      have hm : a.1 ∈ toRemove := List.mem_map_of_mem Prod.fst ha
      simp [hm]
    have hdisj : ∀ a ∈ sorted.drop (live.length - maxSize), a.1 ∉ toRemove := by
      intro a ha hin
      have hndapp : ((sorted.take (live.length - maxSize)).map Prod.fst ++
          (sorted.drop (live.length - maxSize)).map Prod.fst).Nodup := by
        rw [← List.map_append, ← hsplit]; exact hndsorted
      exact (List.disjoint_of_nodup_append hndapp) hin
        (List.mem_map_of_mem Prod.fst ha)
    have hdrop : (sorted.drop (live.length - maxSize)).filter
        (fun e => !(toRemove.contains e.1)) = sorted.drop (live.length - maxSize) := by
      apply List.filter_eq_self.mpr
      intro a ha
      cases hc : toRemove.contains a.1
      · rfl
      · exact absurd (List.elem_iff.mp hc) (hdisj a ha)
    have hlen : (live.filter (fun e => !(toRemove.contains e.1))).length =
        (sorted.drop (live.length - maxSize)).length := by
      rw [hfperm.length_eq]
      conv_lhs => rw [hsplit]
      rw [List.filter_append, htake, hdrop, List.nil_append]
    rw [hlen, List.length_drop, hperm.length_eq]
    omega
  · rw [if_neg h]
    omega

/-- `setEntry` grows the store by at most one entry. -/
theorem setEntry_length_le (k : String) (it : CacheItem) (c : Cache) :
    (setEntry k it c).length ≤ c.length + 1 := by
  induction c with
  | nil => simp [setEntry]
  | cons e rest ih =>
    by_cases h : e.1 = k
    · simp [setEntry, h]
    · simp only [setEntry, h, if_false, List.length_cons]
      omega

/-- The store for the C4 counterexample: one live, recently accessed entry. -/
def c4Cache : Cache := [("k1", ⟨.str "x", 1000, 1000, 3600, "api"⟩)]

/-- C4 counterexample.  With `maxSize = 1` and one live entry, `set` of a
fresh key pushes the count to 2 > `maxSize` and evicts nothing: `cleanup`
runs before the insert, so `set` never brings the count back down to
`maxSize`. -/
theorem lru_eviction_counterexample :
    (cacheSetS 1000 "k2" (.str "y") 3600 1 c4Cache).length = 2 ∧ ¬ (2 ≤ 1) :=
  ⟨rfl, by omega⟩

/-- C4 (amended).  `set` runs `cleanup` before inserting: `cleanup` evicts
exactly `max(liveCount - maxSize, 0)` least-recently-accessed live entries,
bringing the pre-insert count to `min(liveCount, maxSize)`, so immediately
after `set` the count is at most `maxSize + 1` — not `maxSize`; and the
entry with the strictly greatest `lastAccessed` among the live entries is
never evicted by `cleanup` as long as `maxSize ≥ 1`. -/
theorem lru_eviction_amended (now maxSize ttl : Nat) (k : String) (v : Json)
    (c : Cache) (m : String × CacheItem) (hnd : (c.map Prod.fst).Nodup) :
    (cleanup now maxSize c).length = min (liveEntries now c).length maxSize ∧
    (cacheSetS now k v ttl maxSize c).length ≤ maxSize + 1 ∧
    (1 ≤ maxSize → m ∈ liveEntries now c →
      (∀ y ∈ liveEntries now c, y ≠ m → y.2.lastAccessed < m.2.lastAccessed) →
      m ∈ cleanup now maxSize c) := by
  refine ⟨cleanup_length now maxSize c hnd, ?_, ?_⟩
  · have h1 := cleanup_length now maxSize c hnd
    have h2 := setEntry_length_le k ⟨v, now, now, ttl, "api"⟩ (cleanup now maxSize c)
    unfold cacheSetS
    omega
  · intro hms hm hmax
    unfold cleanup
    by_cases h : maxSize < (liveEntries now c).length
    · rw [if_pos h]
      set live := liveEntries now c with hlive
      have hndlive : (live.map Prod.fst).Nodup :=
        hnd.sublist ((List.filter_sublist c).map Prod.fst)
      obtain ⟨rest, hsort, _⟩ :=
        insertionSort_max_last live m (hndlive.of_map Prod.fst) hm hmax
      set sorted := live.insertionSort (fun a b => a.2.lastAccessed ≤ b.2.lastAccessed)
        with hsorted
      have hperm : List.Perm sorted live := List.perm_insertionSort _ live
      have hndsorted : (sorted.map Prod.fst).Nodup :=
        ((hperm.map Prod.fst).nodup_iff).mpr hndlive
      have hrestlen : rest.length + 1 = live.length := by
        have := hperm.length_eq
        rw [hsort] at this
        simp at this
        omega
      have htake : sorted.take (live.length - maxSize) =
          rest.take (live.length - maxSize) := by
        rw [hsort]
        exact List.take_append_of_le_length (by omega)
      have hmrest : m.1 ∉ rest.map Prod.fst := by
        intro hin
        have : (rest.map Prod.fst ++ [m.1]).Nodup := by
          have : sorted.map Prod.fst = rest.map Prod.fst ++ [m.1] := by
            rw [hsort]; simp
          rw [← this]; exact hndsorted
        exact (List.disjoint_of_nodup_append this) hin (List.mem_singleton.mpr rfl)
      refine List.mem_filter.mpr ⟨hm, ?_⟩
      have hnotin : m.1 ∉ (sorted.take (live.length - maxSize)).map Prod.fst := by
        intro hin
        apply hmrest
        rw [htake] at hin
        rcases List.mem_map.mp hin with ⟨y, hy, hy1⟩
        exact hy1 ▸ List.mem_map_of_mem Prod.fst ((List.take_sublist _ rest).mem hy)
      cases hc : ((sorted.take (live.length - maxSize)).map Prod.fst).contains m.1
      · rfl
      · exact absurd (List.elem_iff.mp hc) hnotin
    · rw [if_neg h]
      exact hm

/-- The store for the C4 witness: two live entries, maxSize 1; the entry
accessed most recently (`"k2"`) survives cleanup. -/
def c4wCache : Cache :=
  [("k1", ⟨.str "x", 1000, 1000, 3600, "api"⟩),
   ("k2", ⟨.str "y", 1000, 2000, 3600, "api"⟩)]

/-- The most recently accessed entry of `c4wCache`. -/
def c4wNewest : String × CacheItem := ("k2", ⟨.str "y", 1000, 2000, 3600, "api"⟩)

/-- Witness for the amended C4 at a concrete overfull store. -/
theorem lru_eviction_amended_witness :
    (c4wCache.map Prod.fst).Nodup ∧
    ((cleanup 2000 1 c4wCache).length = min (liveEntries 2000 c4wCache).length 1 ∧
     (cacheSetS 2000 "k3" (.str "z") 3600 1 c4wCache).length ≤ 1 + 1 ∧
     (1 ≤ 1 → c4wNewest ∈ liveEntries 2000 c4wCache →
       (∀ y ∈ liveEntries 2000 c4wCache, y ≠ c4wNewest →
         y.2.lastAccessed < c4wNewest.2.lastAccessed) →
       c4wNewest ∈ cleanup 2000 1 c4wCache)) :=
  ⟨by decide,
   lru_eviction_amended 2000 1 3600 "k3" (.str "z") c4wCache c4wNewest (by decide)⟩

/-- `cleanup` only ever removes entries. -/
theorem cleanup_sublist (now maxSize : Nat) (c : Cache) :
    List.Sublist (cleanup now maxSize c) c := by
  unfold cleanup
  by_cases hc : maxSize < (liveEntries now c).length
  · rw [if_pos hc]
    exact (List.filter_sublist _).trans (List.filter_sublist c)
  · rw [if_neg hc]
    exact List.filter_sublist c

/-- A key present after `setEntry` is the written key or was present before. -/
theorem mem_keys_setEntry (k k' : String) (it : CacheItem) (c : Cache)
    (h : k' ∈ (setEntry k it c).map Prod.fst) : k' = k ∨ k' ∈ c.map Prod.fst := by
  induction c with
  | nil =>
    simp [setEntry] at h
    exact Or.inl h
  | cons e rest ih =>
    by_cases he : e.1 = k
    · simp [setEntry, he] at h
      rcases h with h | h
      · exact Or.inl h
      · exact Or.inr (by simp [h])
    · simp only [setEntry, he, if_false, List.map_cons, List.mem_cons] at h
      rcases h with h | h
      · exact Or.inr (by simp [h])
      · rcases ih h with h1 | h1
        · exact Or.inl h1
        · exact Or.inr (by simp [h1])

/-- A key present after `set` is the written key or was present before. -/
theorem mem_keys_set (now ttl maxSize : Nat) (k k' : String) (v : Json) (c : Cache)
    (h : k' ∈ (cacheSetS now k v ttl maxSize c).map Prod.fst) :
    k' = k ∨ k' ∈ c.map Prod.fst := by
  rcases mem_keys_setEntry k k' _ _ h with h1 | h1
  · exact Or.inl h1
  · exact Or.inr (((cleanup_sublist now maxSize c).map Prod.fst).mem h1)

/-- A cache-miss fetch below the limit succeeds and counts one request. -/
theorem fetch_miss_ok (t limit windowSize maxSize ttl n : Nat) (k : String)
    (v : Json) (c : Cache) (hn : n < limit) (hk : k ∉ c.map Prod.fst) :
    fetchWithCache t limit windowSize maxSize k false false ttl (some v) ⟨⟨n, t⟩, c⟩
      = (.ok v, ⟨⟨n + 1, t⟩, cacheSetS t k v ttl maxSize c⟩) := by
  have hget : cacheGetS t k c = (none, c) := by
    unfold cacheGetS
    have hfind : c.find? (fun e => e.1 = k) = none := by
      apply List.find?_eq_none.mpr
      intro e he
      simp only [decide_eq_true_eq]
      intro hek
      exact hk (hek ▸ List.mem_map_of_mem Prod.fst he)
    rw [hfind]
  unfold fetchWithCache
  rw [hget]
  have h1 : ¬ (windowSize < t - t) := by omega
  have h2 : ¬ (limit ≤ n) := by omega
  simp [enforceRateLimit, h1, h2]

/-- A cache-miss fetch at the limit is rejected with the remaining wait
time, regardless of what the upstream would have answered: the request
interceptor throws before any network call is made. -/
theorem fetch_miss_limited (t limit windowSize maxSize ttl : Nat) (k : String)
    (u : Option Json) (c : Cache) (hk : k ∉ c.map Prod.fst) :
    fetchWithCache t limit windowSize maxSize k false false ttl u ⟨⟨limit, t⟩, c⟩
      = (.error (.rateLimited ((windowSize + 999) / 1000)), ⟨⟨limit, t⟩, c⟩) := by
  have hget : cacheGetS t k c = (none, c) := by
    unfold cacheGetS
    have hfind : c.find? (fun e => e.1 = k) = none := by
      apply List.find?_eq_none.mpr
      intro e he
      simp only [decide_eq_true_eq]
      intro hek
      exact hk (hek ▸ List.mem_map_of_mem Prod.fst he)
    rw [hfind]
  unfold fetchWithCache
  rw [hget]
  have h1 : ¬ (windowSize < t - t) := by omega
  simp [enforceRateLimit, h1, Nat.le_refl, Nat.sub_self]

/-- A run of fresh-key, successful fetches all inside the rate limit
returns every payload and counts every request; the cache gains only the
fetched keys. -/
theorem runFetches_all_ok (t limit windowSize maxSize ttl : Nat) :
    ∀ (calls : List (String × Json)) (n : Nat) (c : Cache),
      n + calls.length ≤ limit →
      (∀ k ∈ calls.map Prod.fst, k ∉ c.map Prod.fst) →
      (calls.map Prod.fst).Nodup →
      ∃ c', runFetches t limit windowSize maxSize ttl
          (calls.map (fun p => (p.1, some p.2))) ⟨⟨n, t⟩, c⟩
        = (calls.map (fun p => Except.ok p.2), ⟨⟨n + calls.length, t⟩, c'⟩) ∧
        (∀ k', k' ∈ c'.map Prod.fst →
          k' ∈ c.map Prod.fst ∨ k' ∈ calls.map Prod.fst) := by
  intro calls
  induction calls with
  | nil =>
    intro n c _ _ _
    exact ⟨c, by simp [runFetches], fun k' hk => Or.inl hk⟩
  | cons p rest ih =>
    intro n c hle hfresh hnd
    obtain ⟨k, v⟩ := p
    have hkfresh : k ∉ c.map Prod.fst := hfresh k (by simp)
    have hmapped : (k :: rest.map Prod.fst).Nodup := by
      simp only [List.map_cons] at hnd
      exact hnd
    have hknotrest : k ∉ rest.map Prod.fst := (List.nodup_cons.mp hmapped).1
    have hfetch := fetch_miss_ok t limit windowSize maxSize ttl n k v c
      (by simp at hle; omega) hkfresh
    have hfresh2 : ∀ k'' ∈ rest.map Prod.fst,
        k'' ∉ (cacheSetS t k v ttl maxSize c).map Prod.fst := by
      intro k'' hk'' hin
      rcases mem_keys_set t ttl maxSize k k'' v c hin with h | h
      · exact hknotrest (h ▸ hk'')
      · exact hfresh k'' (by simp [hk'']) h
    obtain ⟨c', hrun, hkeys⟩ := ih (n + 1) (cacheSetS t k v ttl maxSize c)
      (by simp at hle ⊢; omega) hfresh2 (List.nodup_cons.mp hmapped).2
    refine ⟨c', ?_, ?_⟩
    · simp only [List.map_cons, runFetches]
      rw [hfetch]
      dsimp only
      rw [hrun]
      have hn : n + 1 + rest.length = n + (rest.length + 1) := by omega
      simp [hn]
    · intro k' hk'
      rcases hkeys k' hk' with h | h
      · rcases mem_keys_set t ttl maxSize k k' v c h with h1 | h1
        · exact Or.inr (by simp [h1])
        · exact Or.inl h1
      · exact Or.inr (by simp [h])

/-- `runFetches` over a concatenation is the concatenation of the two runs,
the second starting from the first runʼs final state. -/
theorem runFetches_append (t limit windowSize maxSize ttl : Nat)
    (l1 l2 : List (String × Option Json)) (st : ClientState) :
    runFetches t limit windowSize maxSize ttl (l1 ++ l2) st
      = ((runFetches t limit windowSize maxSize ttl l1 st).1 ++
          (runFetches t limit windowSize maxSize ttl l2
            (runFetches t limit windowSize maxSize ttl l1 st).2).1,
         (runFetches t limit windowSize maxSize ttl l2
            (runFetches t limit windowSize maxSize ttl l1 st).2).2) := by
  induction l1 generalizing st with
  | nil => simp [runFetches]
  | cons p rest ih =>
    obtain ⟨k, u⟩ := p
    simp only [List.cons_append, runFetches, List.append_eq]
    rw [ih]

/-- C5.  From a fresh rate window, `limit + 1` cache-miss fetches inside
one window: the first `limit` succeed (each returning its payload) and the
`(limit+1)`-th fails with `rateLimited` carrying the remaining wait time in
whole seconds — and it does so for every possible upstream outcome
`ulast`, i.e. without consulting the network at all. -/
theorem rate_limiter (limit windowSize maxSize ttl t : Nat)
    (firstCalls : List (String × Json)) (klast : String) (ulast : Option Json)
    (c0 : Cache)
    (hlen : firstCalls.length = limit)
    (hnd : ((firstCalls.map Prod.fst) ++ [klast]).Nodup)
    (hfresh : ∀ k ∈ (firstCalls.map Prod.fst) ++ [klast], k ∉ c0.map Prod.fst) :
    (runFetches t limit windowSize maxSize ttl
        ((firstCalls.map (fun p => (p.1, some p.2))) ++ [(klast, ulast)])
        ⟨⟨0, t⟩, c0⟩).1
      = (firstCalls.map (fun p => Except.ok p.2)) ++
          [Except.error (.rateLimited ((windowSize + 999) / 1000))] := by
  obtain ⟨c', hrun, hkeys⟩ := runFetches_all_ok t limit windowSize maxSize ttl
    firstCalls 0 c0 (by omega)
    (fun k hk => hfresh k (List.mem_append_left _ hk))
    (List.nodup_append.mp hnd).1
  have hklast : klast ∉ c'.map Prod.fst := by
    intro hin
    rcases hkeys klast hin with h | h
    · exact hfresh klast (List.mem_append_right _ (List.mem_singleton.mpr rfl)) h
    · exact (List.disjoint_of_nodup_append hnd) h (List.mem_singleton.mpr rfl)
  rw [runFetches_append, hrun]
  have hstate : (0 : Nat) + firstCalls.length = limit := by omega
  rw [hstate]
  have hsingle : (runFetches t limit windowSize maxSize ttl [(klast, ulast)]
      ⟨⟨limit, t⟩, c'⟩).1
      = [Except.error (.rateLimited ((windowSize + 999) / 1000))] := by
    simp only [runFetches]
    rw [fetch_miss_limited t limit windowSize maxSize ttl klast ulast c' hklast]
  rw [hsingle]

/-- Witness for C5 with `limit = 1`, a fresh window at `t = 0`, an empty
cache and a failing upstream for the rejected call. -/
theorem rate_limiter_witness :
    ([("a", Json.str "x")].length = 1) ∧
    ((([("a", Json.str "x")].map Prod.fst) ++ ["b"]).Nodup) ∧
    (∀ k ∈ ([("a", Json.str "x")].map Prod.fst) ++ ["b"],
      k ∉ ([] : Cache).map Prod.fst) ∧
    (runFetches 0 1 60000 1000 3600
        (([("a", Json.str "x")].map (fun p => (p.1, some p.2))) ++ [("b", none)])
        ⟨⟨0, 0⟩, []⟩).1
      = ([("a", Json.str "x")].map (fun p => Except.ok p.2)) ++
          [Except.error (.rateLimited ((60000 + 999) / 1000))] :=
  ⟨rfl, by decide, by decide,
   rate_limiter 1 60000 1000 3600 0 [("a", Json.str "x")] "b" none []
     rfl (by decide) (by decide)⟩

/-- The `termCount` recorded for document `d` in a posting list (0 when no
posting for `d` exists). -/
def postingCountIn (ps : List Posting) (d : String) : Nat :=
  match ps with
  | [] => 0
  | p :: rest => if p.docId = d then p.count else postingCountIn rest d

/-- The `termCount` recorded for `(term t, document d)` in an index. -/
def postingCount (idx : Index) (t d : String) : Nat :=
  postingCountIn (lookupIdx idx t) d

/-- Every posting list of the index has pairwise-distinct document keys. -/
def IndexNodup (idx : Index) : Prop :=
  ∀ t ps, (t, ps) ∈ idx → (ps.map (fun p => p.docId)).Nodup

/-- One step of the index lookup. -/
theorem lookupIdx_cons (t' t : String) (ps : List Posting) (rest : Index) :
    lookupIdx ((t', ps) :: rest) t = if t' = t then ps else lookupIdx rest t := rfl

/-- Reading the count for `(t, d)` through one index entry. -/
theorem postingCount_cons (t' t d : String) (ps : List Posting) (rest : Index) :
    postingCount ((t', ps) :: rest) t d
      = if t' = t then postingCountIn ps d else postingCount rest t d := by
  unfold postingCount
  rw [lookupIdx_cons]
  by_cases h : t' = t
  · rw [if_pos h, if_pos h]
  · rw [if_neg h, if_neg h]

/-- `bumpPosting` adds one to the count of exactly the bumped document. -/
theorem bumpPosting_count (doc ty d : String) (ps : List Posting) :
    postingCountIn (bumpPosting doc ty ps) d
      = postingCountIn ps d + (if d = doc then 1 else 0) := by
  induction ps with
  | nil =>
    by_cases h : d = doc
    · subst h; simp [bumpPosting, postingCountIn]
    · have h2 : ¬ (doc = d) := fun he => h he.symm
      simp [bumpPosting, postingCountIn, h, h2]
  | cons p rest ih =>
    by_cases hp : p.docId = doc
    · by_cases hd : d = doc
      · subst hd
        simp [bumpPosting, hp, postingCountIn]
      · have hpd : ¬ (p.docId = d) := by
          rw [hp]; exact fun he => hd he.symm
        have hdd : ¬ (doc = d) := fun he => hd he.symm
        simp [bumpPosting, hp, postingCountIn, hpd, hd, hdd]
    · by_cases hpd : p.docId = d
      · have hd : ¬ (d = doc) := by
          rw [← hpd]; exact hp
        simp [bumpPosting, hp, postingCountIn, hpd, hd]
      · simp [bumpPosting, hp, postingCountIn, hpd, ih]

/-- `addTok` adds one to the count of exactly the `(token, document)` pair
being indexed. -/
theorem addTok_count (doc ty tok t d : String) (idx : Index) :
    postingCount (addTok doc ty tok idx) t d
      = postingCount idx t d + (if t = tok ∧ d = doc then 1 else 0) := by
  induction idx with
  | nil =>
    by_cases ht : t = tok
    · subst ht
      by_cases hd : d = doc
      · subst hd
        simp [addTok, postingCount, lookupIdx, postingCountIn]
      · have hdd : ¬ (doc = d) := fun he => hd he.symm
        simp [addTok, postingCount, lookupIdx, postingCountIn, hd, hdd]
    · have htt : ¬ (tok = t) := fun he => ht he.symm
      simp [addTok, postingCount, lookupIdx, postingCountIn, ht, htt]
  | cons e rest ih =>
    obtain ⟨t', ps⟩ := e
    by_cases hte : t' = tok
    · rw [show addTok doc ty tok ((t', ps) :: rest)
          = (t', bumpPosting doc ty ps) :: rest from by simp [addTok, hte]]
      rw [postingCount_cons, postingCount_cons]
      by_cases htt : t' = t
      · rw [if_pos htt, if_pos htt, bumpPosting_count]
        have ht : t = tok := by rw [← htt, hte]
        by_cases hd : d = doc
        · simp [ht, hd]
        · simp [ht, hd]
      · rw [if_neg htt, if_neg htt]
        have ht : ¬ (t = tok) := by
          rw [← hte]; exact fun he => htt he.symm
        simp [ht]
    · rw [show addTok doc ty tok ((t', ps) :: rest)
          = (t', ps) :: addTok doc ty tok rest from by simp [addTok, hte]]
      rw [postingCount_cons, postingCount_cons]
      by_cases htt : t' = t
      · rw [if_pos htt, if_pos htt]
        have ht : ¬ (t = tok) := fun he => hte (htt.trans he)
        simp [ht]
      · rw [if_neg htt, if_neg htt]
        exact ih

/-- Indexing one documentʼs token list adds, per term, exactly the number
of occurrences of that term in the list — for that document only. -/
theorem indexDoc_count (doc ty t d : String) (toks : List String) :
    ∀ idx, postingCount (indexDoc idx doc ty toks) t d
      = postingCount idx t d + (if d = doc then toks.count t else 0) := by
  induction toks with
  | nil => intro idx; simp [indexDoc]
  | cons tk rest ih =>
    intro idx
    have hstep : indexDoc idx doc ty (tk :: rest)
        = indexDoc (addTok doc ty tk idx) doc ty rest := rfl
    rw [hstep, ih, addTok_count]
    by_cases hd : d = doc
    · by_cases htk : t = tk
      · subst htk
        simp [hd, List.count_cons]
        omega
      · have hbeq : ¬ ((t == tk) = true) := by simpa using htk
        simp [hd, htk, List.count_cons, hbeq]
    · simp [hd]

/-- Folding documents into the index accumulates, per `(term, document)`,
the token counts of the documents with that key. -/
theorem buildFold_count (t d : String) (items : List CacheView) :
    ∀ idx, postingCount
        (items.foldl
          (fun i v => indexDoc i v.cacheKey (dataTypeOf v.cacheKey) (docTokens v)) idx)
        t d
      = postingCount idx t d +
        (items.map
          (fun v => if d = v.cacheKey then (docTokens v).count t else 0)).sum := by
  induction items with
  | nil => intro idx; simp
  | cons v rest ih =>
    intro idx
    simp only [List.foldl_cons, List.map_cons, List.sum_cons]
    rw [ih, indexDoc_count]
    omega

/-- In a list of documents with pairwise-distinct keys, the per-key sum
collapses to the one matching documentʼs contribution. -/
theorem sum_single_key (item : CacheView) (f : CacheView → Nat) :
    ∀ items : List CacheView, item ∈ items →
      ((items.map (fun v => v.cacheKey)).Nodup) →
      ((items.map (fun v => if item.cacheKey = v.cacheKey then f v else 0)).sum)
        = f item := by
  intro items
  induction items with
  | nil => intro h; cases h
  | cons v rest ih =>
    intro hmem hnd
    simp only [List.map_cons] at hnd
    have hnd1 := List.nodup_cons.mp hnd
    simp only [List.map_cons, List.sum_cons]
    rcases List.mem_cons.mp hmem with he | he
    · subst he
      rw [if_pos rfl]
      have hz : ((rest.map
          (fun v' => if item.cacheKey = v'.cacheKey then f v' else 0))).sum = 0 := by
        apply List.sum_eq_zero
        intro x hx
        rcases List.mem_map.mp hx with ⟨v', hv', hfx⟩
        have hne : ¬ (item.cacheKey = v'.cacheKey) := by
          intro hkey
          exact hnd1.1 (hkey ▸ List.mem_map_of_mem (fun v => v.cacheKey) hv')
        rw [← hfx, if_neg hne]
      rw [hz]
      omega
    · have hkey : ¬ (item.cacheKey = v.cacheKey) := by
        intro hk
        exact hnd1.1 (hk ▸ List.mem_map_of_mem (fun v => v.cacheKey) he)
      rw [if_neg hkey, ih he hnd1.2]
      omega

/-- The document keys of a bumped posting list: unchanged when the
document already has a posting, extended by it otherwise. -/
theorem bumpPosting_docIds (doc ty : String) (ps : List Posting) :
    (bumpPosting doc ty ps).map (fun p => p.docId)
      = if doc ∈ ps.map (fun p => p.docId) then ps.map (fun p => p.docId)
        else ps.map (fun p => p.docId) ++ [doc] := by
  induction ps with
  | nil => simp [bumpPosting]
  | cons p rest ih =>
    by_cases hp : p.docId = doc
    · simp [bumpPosting, hp]
    · have hstep : bumpPosting doc ty (p :: rest) = p :: bumpPosting doc ty rest := by
        simp [bumpPosting, hp]
      rw [hstep]
      simp only [List.map_cons, ih]
      by_cases hm : doc ∈ rest.map (fun p => p.docId)
      · rw [if_pos hm, if_pos (by simp [hm])]
      · have hne : ¬ (doc = p.docId) := fun he => hp he.symm
        have hcond : ¬ (doc ∈ p.docId :: rest.map (fun p => p.docId)) := by
          intro hc
          rcases List.mem_cons.mp hc with h1 | h1
          · exact hne h1
          · exact hm h1
        rw [if_neg hm, if_neg hcond]
        rfl

/-- `bumpPosting` preserves distinctness of the document keys. -/
theorem bumpPosting_nodup (doc ty : String) (ps : List Posting)
    (h : (ps.map (fun p => p.docId)).Nodup) :
    ((bumpPosting doc ty ps).map (fun p => p.docId)).Nodup := by
  rw [bumpPosting_docIds]
  by_cases hm : doc ∈ ps.map (fun p => p.docId)
  · rw [if_pos hm]; exact h
  · rw [if_neg hm]
    refine List.nodup_append.mpr ⟨h, List.nodup_singleton _, ?_⟩
    intro a ha hb
    rw [List.mem_singleton.mp hb] at ha
    exact hm ha

/-- `addTok` preserves the per-term distinctness invariant. -/
theorem addTok_nodup (doc ty tok : String) (idx : Index) (h : IndexNodup idx) :
    IndexNodup (addTok doc ty tok idx) := by
  induction idx with
  | nil =>
    intro t ps hmem
    simp only [addTok, List.mem_singleton] at hmem
    cases hmem
    simp
  | cons e rest ih =>
    obtain ⟨t', ps'⟩ := e
    by_cases ht : t' = tok
    · intro t ps hmem
      simp only [addTok, ht, if_true] at hmem
      rcases List.mem_cons.mp hmem with he | he
      · cases he
        exact bumpPosting_nodup doc ty ps' (h t' ps' (List.mem_cons_self _ _))
      · exact h t ps (List.mem_cons_of_mem _ he)
    · intro t ps hmem
      simp only [addTok, ht, if_false] at hmem
      rcases List.mem_cons.mp hmem with he | he
      · cases he
        exact h t' ps' (List.mem_cons_self _ _)
      · exact ih (fun t2 ps2 hm2 => h t2 ps2 (List.mem_cons_of_mem _ hm2)) t ps he

/-- Indexing a document preserves the per-term distinctness invariant. -/
theorem indexDoc_nodup (doc ty : String) (toks : List String) :
    ∀ idx, IndexNodup idx → IndexNodup (indexDoc idx doc ty toks) := by
  induction toks with
  | nil => intro idx h; exact h
  | cons tk rest ih =>
    intro idx h
    exact ih _ (addTok_nodup doc ty tk idx h)

/-- Every index built by `buildIndex` satisfies the distinctness invariant. -/
theorem buildIndex_nodup (now : Nat) (c : Cache) : IndexNodup (buildIndex now c) := by
  unfold buildIndex
  generalize getAllData now c = items
  have hbase : IndexNodup ([] : Index) := fun t ps h => by cases h
  revert hbase
  generalize ([] : Index) = idx0
  intro hbase
  induction items generalizing idx0 with
  | nil => exact hbase
  | cons v rest ih =>
    simp only [List.foldl_cons]
    exact ih _ (indexDoc_nodup _ _ _ _ hbase)

/-- C7.  Posting deduplication: in every index produced by `buildIndex`,
each term has at most one posting per document key, and the `termCount`
recorded for a `(term, documentKey)` pair equals the number of occurrences
of the term among that documentʼs tokens — repetition increments the
count instead of duplicating the posting. -/
theorem posting_dedup (now : Nat) (c : Cache)
    (hnd : ((getAllData now c).map (fun v => v.cacheKey)).Nodup) :
    (∀ t ps, (t, ps) ∈ buildIndex now c → (ps.map (fun p => p.docId)).Nodup) ∧
    (∀ item ∈ getAllData now c, ∀ t,
      postingCount (buildIndex now c) t item.cacheKey
        = (docTokens item).count t) := by
  refine ⟨buildIndex_nodup now c, ?_⟩
  intro item hmem t
  unfold buildIndex
  rw [buildFold_count]
  have h0 : postingCount [] t item.cacheKey = 0 := rfl
  rw [h0, sum_single_key item (fun v => (docTokens v).count t) _ hmem hnd]
  omega

/-- The cache for the C7 witness: one generic document whose text repeats
the token `alpha`. -/
def c7wCache : Cache :=
  [("doc1", ⟨.obj [("x", .str "alpha alpha beta")], 0, 0, 3600, "api"⟩)]

/-- Witness for C7 at a concrete store with a repeated token. -/
theorem posting_dedup_witness :
    (((getAllData 0 c7wCache).map (fun v => v.cacheKey)).Nodup) ∧
    ((∀ t ps, (t, ps) ∈ buildIndex 0 c7wCache → (ps.map (fun p => p.docId)).Nodup) ∧
     (∀ item ∈ getAllData 0 c7wCache, ∀ t,
       postingCount (buildIndex 0 c7wCache) t item.cacheKey
         = (docTokens item).count t)) :=
  ⟨by decide, posting_dedup 0 c7wCache (by decide)⟩

end OpenGov
